import Mathlib

set_option maxHeartbeats 1000000

/-!
Verification of the npch_slicer slicing engine (src/src/main.rs).

The data model and operations are embedded shallowly:
* `RawSliceRequest`, `SliceRequest`, `FromRawError` mirror the Rust structs and
  error enum; `BTreeSet<u32>` becomes `Finset ℕ`.
* `SliceRequest.tryFrom` embeds `TryFrom<RawSliceRequest> for SliceRequest`.
* `SliceRequests.new` embeds the aggregate constructor with its
  `required_pages` union.
* The PDF document (an external collaborator, lopdf) is modelled from the spec
  as a list of pages carrying abstract content, with 1-based page numbers.
* `slice_guide` is embedded as a pure fold threading an explicit export state.
* `shrink` is embedded with the filesystem and the external tool's run passed
  explicitly.
-/

/-- Mirrors the Rust struct `RawSliceRequest`: one untrusted declarative row. -/
structure RawSliceRequest where
  description : String
  start_page : ℕ
  end_page : ℕ
  deriving Repr, DecidableEq

/-- Mirrors the Rust enum `FromRawError` produced by validation. -/
inductive FromRawError where
  | InvalidPageRange (description : String) (start_page : ℕ) (end_page : ℕ)
  | EmptyPageRange (description : String)
  deriving Repr, DecidableEq

/-- Mirrors the Rust struct `SliceRequest`: a validated request with its
derived half-open page set. -/
structure SliceRequest where
  description : String
  start_page : ℕ
  end_page : ℕ
  pages : Finset ℕ
  deriving DecidableEq

/-- Embeds `TryFrom<RawSliceRequest> for SliceRequest`: the three-way
comparison of `start_page` and `end_page` (Less / Equal / Greater). -/
def SliceRequest.tryFrom (record : RawSliceRequest) : Except FromRawError SliceRequest :=
  if record.start_page < record.end_page then
    .ok { description := record.description
          start_page := record.start_page
          end_page := record.end_page
          pages := Finset.Ico record.start_page record.end_page }
  else if record.start_page = record.end_page then
    .error (.EmptyPageRange record.description)
  else
    .error (.InvalidPageRange record.description record.start_page record.end_page)

/-- Mirrors the Rust struct `SliceRequests`: the ordered individuals plus the
derived union of required pages. -/
structure SliceRequests where
  individuals : List SliceRequest
  required_pages : Finset ℕ

/-- Embeds `SliceRequests::new`: inserts every page of every request's
`start_page..end_page` range into `required_pages`. -/
def SliceRequests.new (individuals : List SliceRequest) : SliceRequests :=
  { individuals := individuals
    required_pages :=
      individuals.foldl
        (fun acc slice_request =>
          acc ∪ Finset.Ico slice_request.start_page slice_request.end_page) ∅ }

/-- Embeds `SliceRequests::unnecessary_pages`: set difference of all pages
and the required pages. -/
def SliceRequests.unnecessary_pages (s : SliceRequests) (all_pages : Finset ℕ) : Finset ℕ :=
  all_pages \ s.required_pages

/-- Embeds the `collect::<Result<Vec<_>, _>>` step of `slice`: validate rows
in order, short-circuiting at the first error. -/
def collectRequests : List RawSliceRequest → Except FromRawError (List SliceRequest)
  | [] => .ok []
  | r :: rs =>
    match SliceRequest.tryFrom r with
    | .error e => .error e
    | .ok s =>
      match collectRequests rs with
      | .error e => .error e
      | .ok ss => .ok (s :: ss)

/-- Modelled from the spec: the lopdf `Document` (an external collaborator,
the document codec is out of scope of the repository) is a page-oriented
document; we model it as the list of its pages, each page carrying abstract
content of type `α`, in document order. -/
def Document (α : Type) : Type := List α

/-- Modelled from the spec: lopdf `get_pages` — the set of page identifiers
present in the loaded document, 1-based consecutive numbering `1..page_count`
(format-native numbering of the page container). -/
def Document.get_pages {α : Type} (d : Document α) : Finset ℕ :=
  Finset.Icc 1 (List.length d)

/-- Helper for `Document.delete_pages`: walks the pages with their 1-based
page numbers starting at `i`, dropping every page whose number is listed. -/
def deleteFrom {α : Type} (page_numbers : List ℕ) : ℕ → List α → List α
  | _, [] => []
  | i, p :: rest =>
    if i ∈ page_numbers then deleteFrom page_numbers (i + 1) rest
    else p :: deleteFrom page_numbers (i + 1) rest

/-- Modelled from the spec: lopdf `delete_pages` removes from the document
every page whose original (load-time) page number appears in the given list;
the remaining pages keep their original relative order (slicing is a filter,
never a reorder). -/
def Document.delete_pages {α : Type} (d : Document α) (page_numbers : List ℕ) : Document α :=
  deleteFrom page_numbers 1 d

/-- Helper for `Document.retained`: walks the pages with their 1-based page
numbers starting at `i`, keeping exactly those whose number is in `pages`. -/
def retainFrom {α : Type} (pages : Finset ℕ) : ℕ → List α → List α
  | _, [] => []
  | i, p :: rest =>
    if i ∈ pages then p :: retainFrom pages (i + 1) rest
    else retainFrom pages (i + 1) rest

/-- Modelled from the spec: the intended output of exporting a request — the
pages of the source whose original page number lies in the requested set,
in the source's original relative order. -/
def Document.retained {α : Type} (d : Document α) (pages : Finset ℕ) : Document α :=
  retainFrom pages 1 d

/-- Embeds the `required_deletions` computation of `slice_guide`:
`all_pages.sub(&slice_request.pages).into_iter().collect::<Vec<u32>>()` — the
set difference iterated in ascending order into a vector. -/
def requiredDeletions (all_pages : Finset ℕ) (slice_request : SliceRequest) : List ℕ :=
  (all_pages \ slice_request.pages).sort (· ≤ ·)

/-- State threaded through the export loop of `slice_guide`: the shared
source document and the persisted unoptimized outputs, each an output file
stem paired with the saved document. -/
structure ExportState (α : Type) where
  source : Document α
  outputs : List (String × Document α)

/-- Embeds one iteration of the `for slice_request in slice_requests.iter()`
loop of `slice_guide`: compute the deletion list, clone the source, delete
the pages from the clone and persist it under the request's description. -/
def exportStep {α : Type} (all_pages : Finset ℕ) (st : ExportState α)
    (slice_request : SliceRequest) : ExportState α :=
  let required_deletions := requiredDeletions all_pages slice_request
  let slice_pdf := st.source
  let slice_pdf := Document.delete_pages slice_pdf required_deletions
  { st with outputs := st.outputs ++ [(slice_request.description, slice_pdf)] }

/-- Embeds `slice_guide`: load-time snapshot of the source's page set, then
one export per request in collection order. -/
def slice_guide {α : Type} (document : Document α) (slice_requests : SliceRequests) :
    ExportState α :=
  let all_pages := Document.get_pages document
  slice_requests.individuals.foldl (exportStep all_pages) ⟨document, []⟩

/-- Embeds the batch pipeline of `main`: `slice` (validate all rows,
short-circuiting at the first error — the `unwrap` aborts the process before
`slice_guide` runs) followed by `slice_guide`. -/
def runBatch {α : Type} (rows : List RawSliceRequest) (document : Document α) :
    Except FromRawError (ExportState α) :=
  match collectRequests rows with
  | .error e => .error e
  | .ok individual_slice_requests =>
    .ok (slice_guide document (SliceRequests.new individual_slice_requests))

/-- Mirrors `std::process::Output` as used by `shrink`: the captured exit
status and standard output of the external tool. -/
structure ProcessOutput where
  exit_code : ℕ
  std_out : String
  deriving Repr, DecidableEq

/-- Outcome of a `.unwrap()` abort inside `shrink`. -/
inductive ShrinkError where
  | metadataError (path : String)
  | spawnError
  deriving Repr, DecidableEq

/-- Size-in-bytes view of the filesystem: an association list from path to
file size, `none` meaning the path does not exist (its `metadata()` fails). -/
def fsGet (fs : List (String × ℕ)) (path : String) : Option ℕ :=
  (fs.find? (fun entry => entry.1 = path)).map Prod.snd

/-- Path of the unoptimized export for a given description, as formatted in
`slice_guide` and `shrink`. -/
def unoptimizedPath (pdf_name : String) : String :=
  "./outputs/unoptimized/" ++ pdf_name ++ ".pdf"

/-- Path of the optimized variant for a given description, as formatted in
`shrink`. -/
def optimizedPath (pdf_name : String) : String :=
  "./outputs/optimized/" ++ pdf_name ++ ".pdf"

/-- Embeds `shrink`. The external tool run is passed explicitly: `none` means
`Command::output()` itself failed (tool missing — the `unwrap` aborts);
`some (output, fs2)` means the tool ran, returned `output` (exit status and
standard output, which the code never inspects) and left the filesystem in
state `fs2`. The function returns the resulting filesystem and the printed
size report, or the `unwrap` abort that occurred. -/
def shrink (pdf_name : String) (fs : List (String × ℕ))
    (tool_run : Option (ProcessOutput × List (String × ℕ))) :
    Except ShrinkError (List (String × ℕ) × (ℕ × ℕ)) :=
  match fsGet fs (unoptimizedPath pdf_name) with
  | none => .error (.metadataError (unoptimizedPath pdf_name))
  | some pre_shrink_size =>
    match tool_run with
    | none => .error .spawnError
    | some (_output, fs2) =>
      match fsGet fs2 (optimizedPath pdf_name) with
      | none => .error (.metadataError (optimizedPath pdf_name))
      | some post_shrink_size => .ok (fs2, (pre_shrink_size, post_shrink_size))

example : SliceRequest.tryFrom ⟨"a", 1, 4⟩ =
    .ok ⟨"a", 1, 4, Finset.Ico 1 4⟩ := rfl

example : SliceRequest.tryFrom ⟨"x", 5, 5⟩ =
    .error (.EmptyPageRange "x") := rfl

example : SliceRequest.tryFrom ⟨"y", 7, 2⟩ =
    .error (.InvalidPageRange "y" 7 2) := rfl

/-- C3: For every raw slice request with start_page < end_page, validation
succeeds and produces a SliceRequest whose pages set is exactly the half-open
integer range {start_page, …, end_page-1}, which is non-empty and has
cardinality end_page - start_page. -/
theorem validate_accepts_ordered_range (record : RawSliceRequest)
    (h : record.start_page < record.end_page) :
    SliceRequest.tryFrom record =
      .ok ⟨record.description, record.start_page, record.end_page,
        Finset.Ico record.start_page record.end_page⟩ ∧
    (Finset.Ico record.start_page record.end_page).Nonempty ∧
    (Finset.Ico record.start_page record.end_page).card =
      record.end_page - record.start_page := by
  refine ⟨?_, Finset.nonempty_Ico.mpr h, Nat.card_Ico _ _⟩
  simp [SliceRequest.tryFrom, h]

/-- Witness for C3 at the concrete record ("a", 1, 4). -/
theorem validate_accepts_ordered_range_witness :
    SliceRequest.tryFrom ⟨"a", 1, 4⟩ = .ok ⟨"a", 1, 4, Finset.Ico 1 4⟩ ∧
    (Finset.Ico (1 : ℕ) 4).Nonempty ∧ (Finset.Ico (1 : ℕ) 4).card = 4 - 1 :=
  validate_accepts_ordered_range ⟨"a", 1, 4⟩ (by decide)

/-- C4: validation fails with EmptyPageRange carrying the description when
start_page = end_page, fails with InvalidPageRange carrying the description
and both bounds when start_page > end_page, and fails in no other case (it
is a pure function, so determinism is inherent in the embedding). -/
theorem validate_rejections (record : RawSliceRequest) :
    (record.start_page = record.end_page →
      SliceRequest.tryFrom record = .error (.EmptyPageRange record.description)) ∧
    (record.end_page < record.start_page →
      SliceRequest.tryFrom record =
        .error (.InvalidPageRange record.description record.start_page record.end_page)) ∧
    (record.start_page < record.end_page →
      ∃ s, SliceRequest.tryFrom record = .ok s) := by
  refine ⟨?_, ?_, ?_⟩
  · intro h
    simp [SliceRequest.tryFrom, h]
  · intro h
    have h1 : ¬ record.start_page < record.end_page := by omega
    have h2 : ¬ record.start_page = record.end_page := by omega
    simp [SliceRequest.tryFrom, h1, h2]
  · intro h
    exact ⟨⟨record.description, record.start_page, record.end_page,
      Finset.Ico record.start_page record.end_page⟩, by simp [SliceRequest.tryFrom, h]⟩

/-- Witness for C4 at the concrete records ("x", 5, 5), ("y", 7, 2) and
("a", 1, 4); the first instantiates the spec's start = end = 0 flavour of
degeneracy as well via ("z", 0, 0). -/
theorem validate_rejections_witness :
    SliceRequest.tryFrom ⟨"x", 5, 5⟩ = .error (.EmptyPageRange "x") ∧
    SliceRequest.tryFrom ⟨"z", 0, 0⟩ = .error (.EmptyPageRange "z") ∧
    SliceRequest.tryFrom ⟨"y", 7, 2⟩ = .error (.InvalidPageRange "y" 7 2) ∧
    ∃ s, SliceRequest.tryFrom ⟨"a", 1, 4⟩ = .ok s :=
  ⟨(validate_rejections ⟨"x", 5, 5⟩).1 rfl,
   (validate_rejections ⟨"z", 0, 0⟩).1 rfl,
   (validate_rejections ⟨"y", 7, 2⟩).2.1 (by decide),
   (validate_rejections ⟨"a", 1, 4⟩).2.2 (by decide)⟩

/-- C9: when validation succeeds, the returned SliceRequest carries the
description, start_page and end_page of the raw input unchanged; the only
added field is the derived pages set. -/
theorem validate_preserves_fields (record : RawSliceRequest) (s : SliceRequest)
    (h : SliceRequest.tryFrom record = .ok s) :
    s.description = record.description ∧ s.start_page = record.start_page ∧
    s.end_page = record.end_page ∧
    s.pages = Finset.Ico record.start_page record.end_page := by
  unfold SliceRequest.tryFrom at h
  split at h
  · cases h
    exact ⟨rfl, rfl, rfl, rfl⟩
  · split at h <;> cases h

/-- Witness for C9 at the concrete record ("a", 1, 4). -/
theorem validate_preserves_fields_witness :
    (SliceRequest.mk "a" 1 4 (Finset.Ico 1 4)).description = "a" ∧
    (SliceRequest.mk "a" 1 4 (Finset.Ico 1 4)).start_page = 1 ∧
    (SliceRequest.mk "a" 1 4 (Finset.Ico 1 4)).end_page = 4 ∧
    (SliceRequest.mk "a" 1 4 (Finset.Ico 1 4)).pages = Finset.Ico 1 4 :=
  validate_preserves_fields ⟨"a", 1, 4⟩ ⟨"a", 1, 4, Finset.Ico 1 4⟩ rfl

/-- Membership in the fold accumulating `required_pages` in
`SliceRequests.new`. -/
lemma mem_foldl_union (l : List SliceRequest) (s : Finset ℕ) (x : ℕ) :
    x ∈ l.foldl
        (fun acc slice_request =>
          acc ∪ Finset.Ico slice_request.start_page slice_request.end_page) s ↔
      x ∈ s ∨ ∃ r ∈ l, x ∈ Finset.Ico r.start_page r.end_page := by
  induction l generalizing s with
  | nil => simp
  | cons hd tl ih =>
    rw [List.foldl_cons, ih]
    simp only [Finset.mem_union, List.mem_cons]
    constructor
    · rintro (⟨hx | hx⟩ | ⟨r, hr, hx⟩)
      · exact Or.inl hx
      · exact Or.inr ⟨hd, Or.inl rfl, hx⟩
      · exact Or.inr ⟨r, Or.inr hr, hx⟩
    · rintro (hx | ⟨r, (rfl | hr), hx⟩)
      · exact Or.inl (Or.inl hx)
      · exact Or.inl (Or.inr hx)
      · exact Or.inr ⟨r, hr, hx⟩

/-- Membership characterization of `required_pages`, directly in terms of
the requests' half-open ranges as the code computes it. -/
lemma mem_required_pages (l : List SliceRequest) (x : ℕ) :
    x ∈ (SliceRequests.new l).required_pages ↔
      ∃ r ∈ l, x ∈ Finset.Ico r.start_page r.end_page := by
  rw [SliceRequests.new, mem_foldl_union]
  simp

/-- C5: for every ordered sequence of validated slice requests, the
collection's required_pages equals the union of every individual request's
pages set, and this union is unchanged under any permutation of the
requests. -/
theorem required_pages_is_order_independent_union (l l' : List SliceRequest)
    (hv : ∀ r ∈ l, r.pages = Finset.Ico r.start_page r.end_page)
    (hperm : l.Perm l') :
    (∀ x, x ∈ (SliceRequests.new l).required_pages ↔ ∃ r ∈ l, x ∈ r.pages) ∧
    (SliceRequests.new l).required_pages = (SliceRequests.new l').required_pages := by
  constructor
  · intro x
    rw [mem_required_pages]
    constructor
    · rintro ⟨r, hr, hx⟩
      exact ⟨r, hr, by rw [hv r hr]; exact hx⟩
    · rintro ⟨r, hr, hx⟩
      exact ⟨r, hr, by rw [← hv r hr]; exact hx⟩
  · ext x
    rw [mem_required_pages, mem_required_pages]
    constructor
    · rintro ⟨r, hr, hx⟩
      exact ⟨r, hperm.mem_iff.mp hr, hx⟩
    · rintro ⟨r, hr, hx⟩
      exact ⟨r, hperm.mem_iff.mpr hr, hx⟩

/-- Witness for C5 on two validated requests presented in both orders. -/
theorem required_pages_is_order_independent_union_witness :
    (∀ x, x ∈ (SliceRequests.new
        [⟨"a", 1, 3, Finset.Ico 1 3⟩, ⟨"b", 2, 5, Finset.Ico 2 5⟩]).required_pages ↔
      ∃ r ∈ [SliceRequest.mk "a" 1 3 (Finset.Ico 1 3),
             SliceRequest.mk "b" 2 5 (Finset.Ico 2 5)], x ∈ r.pages) ∧
    (SliceRequests.new
        [⟨"a", 1, 3, Finset.Ico 1 3⟩, ⟨"b", 2, 5, Finset.Ico 2 5⟩]).required_pages =
      (SliceRequests.new
        [⟨"b", 2, 5, Finset.Ico 2 5⟩, ⟨"a", 1, 3, Finset.Ico 1 3⟩]).required_pages :=
  required_pages_is_order_independent_union
    [⟨"a", 1, 3, Finset.Ico 1 3⟩, ⟨"b", 2, 5, Finset.Ico 2 5⟩]
    [⟨"b", 2, 5, Finset.Ico 2 5⟩, ⟨"a", 1, 3, Finset.Ico 1 3⟩]
    (by intro r hr; fin_cases hr <;> rfl)
    (List.Perm.swap _ _ _)

/-- C10: for every request, the deletion list handed to the page-deletion
step is strictly ascending and duplicate-free, and lists exactly the pages
of the set difference all_pages minus the request's pages — each
to-be-deleted page identifier appears exactly once, in increasing order. -/
theorem deletion_list_strictly_ascending (all_pages : Finset ℕ)
    (slice_request : SliceRequest) :
    List.Sorted (· < ·) (requiredDeletions all_pages slice_request) ∧
    (requiredDeletions all_pages slice_request).Nodup ∧
    ∀ x, x ∈ requiredDeletions all_pages slice_request ↔
      x ∈ all_pages ∧ x ∉ slice_request.pages :=
  ⟨Finset.sort_sorted_lt _, Finset.sort_nodup _ _, fun x => by
    rw [requiredDeletions, Finset.mem_sort, Finset.mem_sdiff]⟩

/-- C2: the planned deletion set is exactly the set difference
sourcePages minus request.pages, and page identifiers in the request absent
from sourcePages contribute nothing to it (and the computation is total:
no error is possible at this layer). -/
theorem plan_is_set_difference (sourcePages : Finset ℕ) (r : SliceRequest) :
    (∀ x, x ∈ requiredDeletions sourcePages r ↔ x ∈ sourcePages ∧ x ∉ r.pages) ∧
    (∀ x, x ∉ sourcePages →
      requiredDeletions sourcePages
        ⟨r.description, r.start_page, r.end_page, insert x r.pages⟩ =
        requiredDeletions sourcePages r) := by
  constructor
  · intro x
    rw [requiredDeletions, Finset.mem_sort, Finset.mem_sdiff]
  · intro x hx
    unfold requiredDeletions
    congr 1
    ext y
    simp only [Finset.mem_sdiff, Finset.mem_insert, not_or]
    constructor
    · rintro ⟨hyS, _, hyp⟩
      exact ⟨hyS, hyp⟩
    · rintro ⟨hyS, hyp⟩
      refine ⟨hyS, ?_, hyp⟩
      rintro rfl
      exact hx hyS

/-- Witness for C2: source pages {1,…,5}, request pages {2,3} with the
out-of-range identifier 9 inserted. -/
theorem plan_is_set_difference_witness :
    (∀ x, x ∈ requiredDeletions (Finset.Icc 1 5)
        (SliceRequest.mk "a" 2 4 (Finset.Ico 2 4)) ↔
      x ∈ Finset.Icc 1 5 ∧ x ∉ (SliceRequest.mk "a" 2 4 (Finset.Ico 2 4)).pages) ∧
    requiredDeletions (Finset.Icc 1 5)
        ⟨"a", 2, 4, insert 9 (Finset.Ico 2 4)⟩ =
      requiredDeletions (Finset.Icc 1 5) (SliceRequest.mk "a" 2 4 (Finset.Ico 2 4)) :=
  ⟨(plan_is_set_difference (Finset.Icc 1 5) ⟨"a", 2, 4, Finset.Ico 2 4⟩).1,
   (plan_is_set_difference (Finset.Icc 1 5) ⟨"a", 2, 4, Finset.Ico 2 4⟩).2 9 (by decide)⟩

/-- Deleting exactly the page numbers not in `pages` retains exactly the
pages whose number is in `pages`, position by position. -/
lemma deleteFrom_eq_retainFrom {α : Type} (dels : List ℕ) (pages : Finset ℕ) :
    ∀ (i : ℕ) (d : List α),
      (∀ j, i ≤ j → j < i + d.length → (j ∈ dels ↔ j ∉ pages)) →
      deleteFrom dels i d = retainFrom pages i d := by
  intro i d
  induction d generalizing i with
  | nil => intro _; rfl
  | cons p rest ih =>
    intro h
    simp only [List.length_cons] at h
    simp only [deleteFrom, retainFrom]
    by_cases hmem : i ∈ pages
    · have hnd : i ∉ dels := fun hd2 => (h i le_rfl (by omega)).mp hd2 hmem
      rw [if_neg hnd, if_pos hmem,
        ih (i + 1) (fun j hj1 hj2 => h j (by omega) (by omega))]
    · have hd2 : i ∈ dels := (h i le_rfl (by omega)).mpr hmem
      rw [if_pos hd2, if_neg hmem,
        ih (i + 1) (fun j hj1 hj2 => h j (by omega) (by omega))]

/-- Retention keeps a list unchanged when every present page number is in
the retained set. -/
lemma retainFrom_all {α : Type} (pages : Finset ℕ) :
    ∀ (i : ℕ) (d : List α),
      (∀ j, i ≤ j → j < i + d.length → j ∈ pages) →
      retainFrom pages i d = d := by
  intro i d
  induction d generalizing i with
  | nil => intro _; rfl
  | cons p rest ih =>
    intro h
    simp only [List.length_cons] at h
    simp only [retainFrom]
    rw [if_pos (h i le_rfl (by omega)),
      ih (i + 1) (fun j hj1 hj2 => h j (by omega) (by omega))]

/-- The number of retained pages is the number of retained page numbers
that actually occur in the walked range. -/
lemma retainFrom_length {α : Type} (pages : Finset ℕ) :
    ∀ (i : ℕ) (d : List α),
      (retainFrom pages i d).length =
        (pages ∩ Finset.Ico i (i + d.length)).card := by
  intro i d
  induction d generalizing i with
  | nil => simp [retainFrom]
  | cons p rest ih =>
    simp only [retainFrom, List.length_cons]
    by_cases hmem : i ∈ pages
    · rw [if_pos hmem]
      have hins : pages ∩ Finset.Ico i (i + (rest.length + 1)) =
          insert i (pages ∩ Finset.Ico (i + 1) (i + 1 + rest.length)) := by
        ext y
        simp only [Finset.mem_inter, Finset.mem_Ico, Finset.mem_insert]
        constructor
        · rintro ⟨hy, h1, h2⟩
          by_cases hyi : y = i
          · exact Or.inl hyi
          · exact Or.inr ⟨hy, by omega, by omega⟩
        · rintro (rfl | ⟨hy, h1, h2⟩)
          · exact ⟨hmem, le_rfl, by omega⟩
          · exact ⟨hy, by omega, by omega⟩
      rw [hins, Finset.card_insert_of_not_mem (by
        simp only [Finset.mem_inter, Finset.mem_Ico]
        rintro ⟨_, h1, _⟩
        omega)]
      rw [List.length_cons, ih (i + 1)]
    · rw [if_neg hmem]
      have hsame : pages ∩ Finset.Ico i (i + (rest.length + 1)) =
          pages ∩ Finset.Ico (i + 1) (i + 1 + rest.length) := by
        ext y
        simp only [Finset.mem_inter, Finset.mem_Ico]
        constructor
        · rintro ⟨hy, h1, h2⟩
          have hyi : y ≠ i := by rintro rfl; exact hmem hy
          exact ⟨hy, by omega, by omega⟩
        · rintro ⟨hy, h1, h2⟩
          exact ⟨hy, by omega, by omega⟩
      rw [hsame, ih (i + 1)]

/-- C1: exporting a validated request whose pages lie within the source's
page set computes the deletion set sourcePages minus request.pages, and the
output document retains exactly the pages at the requested page numbers in
the source's original relative order (as many pages as the request names);
a request covering the entire source page range reproduces the source
document unchanged. -/
theorem export_retains_exactly_requested_pages {α : Type} (d : Document α)
    (r : SliceRequest) (hsub : r.pages ⊆ Document.get_pages d) :
    (∀ x, x ∈ requiredDeletions (Document.get_pages d) r ↔
      x ∈ Document.get_pages d ∧ x ∉ r.pages) ∧
    Document.delete_pages d (requiredDeletions (Document.get_pages d) r) =
      Document.retained d r.pages ∧
    List.length (Document.retained d r.pages) = r.pages.card ∧
    (r.pages = Document.get_pages d →
      Document.delete_pages d (requiredDeletions (Document.get_pages d) r) = d) := by
  have hmem : ∀ x, x ∈ requiredDeletions (Document.get_pages d) r ↔
      x ∈ Document.get_pages d ∧ x ∉ r.pages := fun x => by
    rw [requiredDeletions, Finset.mem_sort, Finset.mem_sdiff]
  have hdr : Document.delete_pages d (requiredDeletions (Document.get_pages d) r) =
      Document.retained d r.pages := by
    rw [Document.delete_pages, Document.retained]
    apply deleteFrom_eq_retainFrom
    intro j hj1 hj2
    rw [hmem j]
    have hjS : j ∈ Document.get_pages d := by
      rw [Document.get_pages, Finset.mem_Icc]
      omega
    constructor
    · rintro ⟨_, hnp⟩
      exact hnp
    · intro hnp
      exact ⟨hjS, hnp⟩
  refine ⟨hmem, hdr, ?_, ?_⟩
  · rw [Document.retained, retainFrom_length]
    congr 1
    apply Finset.inter_eq_left.mpr
    intro y hy
    have hyS := hsub hy
    rw [Document.get_pages, Finset.mem_Icc] at hyS
    rw [Finset.mem_Ico]
    omega
  · intro heq
    rw [hdr, heq, Document.retained]
    apply retainFrom_all
    intro j hj1 hj2
    rw [Document.get_pages, Finset.mem_Icc]
    omega

/-- Witness for C1: source document with three pages of content 10, 20, 30
and a request for pages {2, 3}. -/
theorem export_retains_exactly_requested_pages_witness :
    (∀ x, x ∈ requiredDeletions (Document.get_pages ([10, 20, 30] : Document ℕ))
        (SliceRequest.mk "a" 2 4 (Finset.Ico 2 4)) ↔
      x ∈ Document.get_pages ([10, 20, 30] : Document ℕ) ∧ x ∉ Finset.Ico 2 4) ∧
    Document.delete_pages ([10, 20, 30] : Document ℕ)
        (requiredDeletions (Document.get_pages ([10, 20, 30] : Document ℕ))
          (SliceRequest.mk "a" 2 4 (Finset.Ico 2 4))) =
      Document.retained ([10, 20, 30] : Document ℕ) (Finset.Ico 2 4) ∧
    List.length (Document.retained ([10, 20, 30] : Document ℕ) (Finset.Ico 2 4)) =
      (Finset.Ico (2 : ℕ) 4).card ∧
    (Finset.Ico (2 : ℕ) 4 = Document.get_pages ([10, 20, 30] : Document ℕ) →
      Document.delete_pages ([10, 20, 30] : Document ℕ)
          (requiredDeletions (Document.get_pages ([10, 20, 30] : Document ℕ))
            (SliceRequest.mk "a" 2 4 (Finset.Ico 2 4))) =
        ([10, 20, 30] : Document ℕ)) :=
  export_retains_exactly_requested_pages ([10, 20, 30] : Document ℕ)
    ⟨"a", 2, 4, Finset.Ico 2 4⟩ (by decide)

/-- Unrolling the export loop: the source field is threaded unchanged and
each request contributes exactly one output computed from the shared source
and the shared page-set snapshot. -/
lemma foldl_exportStep {α : Type} (all_pages : Finset ℕ) (l : List SliceRequest)
    (src : Document α) (acc : List (String × Document α)) :
    l.foldl (exportStep all_pages) ⟨src, acc⟩ =
      ⟨src, acc ++ l.map (fun r =>
        (r.description, Document.delete_pages src (requiredDeletions all_pages r)))⟩ := by
  induction l generalizing acc with
  | nil => simp
  | cons hd tl ih =>
    have hstep : exportStep all_pages ⟨src, acc⟩ hd =
        ⟨src, acc ++ [(hd.description,
          Document.delete_pages src (requiredDeletions all_pages hd))]⟩ := rfl
    rw [List.foldl_cons, hstep, ih]
    simp

/-- C7: the shared source document is never mutated during export — the
final state still holds the original source — and every request's output is
computed from a fresh copy of that same source with the single load-time
page-set snapshot, so one request's export cannot change another's output. -/
theorem source_never_mutated {α : Type} (document : Document α)
    (slice_requests : SliceRequests) :
    (slice_guide document slice_requests).source = document ∧
    (slice_guide document slice_requests).outputs =
      slice_requests.individuals.map (fun r =>
        (r.description, Document.delete_pages document
          (requiredDeletions (Document.get_pages document) r))) := by
  have h : slice_guide document slice_requests =
      slice_requests.individuals.foldl
        (exportStep (Document.get_pages document)) ⟨document, []⟩ := rfl
  rw [h, foldl_exportStep]
  exact ⟨rfl, by simp⟩

/-- The row-collection step propagates the first validation error: with all
earlier rows valid and one row failing, the collected result is that row's
error. -/
lemma collectRequests_error_at_first (bad : RawSliceRequest)
    (rest : List RawSliceRequest) (e : FromRawError)
    (hbad : SliceRequest.tryFrom bad = .error e) :
    ∀ (pre : List RawSliceRequest), (∀ r ∈ pre, r.start_page < r.end_page) →
      collectRequests (pre ++ bad :: rest) = .error e := by
  intro pre
  induction pre with
  | nil =>
    intro _
    simp only [List.nil_append, collectRequests, hbad]
  | cons r pre' ih =>
    intro hpre
    have hr : SliceRequest.tryFrom r =
        .ok ⟨r.description, r.start_page, r.end_page,
          Finset.Ico r.start_page r.end_page⟩ := by
      simp [SliceRequest.tryFrom, hpre r (List.mem_cons_self r pre')]
    have ih' := ih (fun x hx => hpre x (List.mem_cons_of_mem r hx))
    simp only [List.cons_append, collectRequests, hr, List.append_eq, ih']

/-- C6: if any declarative row fails validation, the whole batch aborts with
the first such row's error before any request is exported — the pipeline
result is that error and no export state (hence no output file) is ever
produced, also for the rows that were valid. -/
theorem batch_aborts_before_any_export {α : Type} (pre : List RawSliceRequest)
    (bad : RawSliceRequest) (rest : List RawSliceRequest) (document : Document α)
    (hpre : ∀ r ∈ pre, r.start_page < r.end_page)
    (hbad : ¬ bad.start_page < bad.end_page) :
    ∃ e, SliceRequest.tryFrom bad = .error e ∧
      runBatch (pre ++ bad :: rest) document = .error e ∧
      ∀ st, runBatch (pre ++ bad :: rest) document ≠ .ok st := by
  obtain ⟨e, he⟩ : ∃ e, SliceRequest.tryFrom bad = .error e := by
    by_cases heq : bad.start_page = bad.end_page
    · exact ⟨.EmptyPageRange bad.description, by simp [SliceRequest.tryFrom, hbad, heq]⟩
    · exact ⟨.InvalidPageRange bad.description bad.start_page bad.end_page,
        by simp [SliceRequest.tryFrom, hbad, heq]⟩
  have hc := collectRequests_error_at_first bad rest e he pre hpre
  refine ⟨e, he, ?_, ?_⟩
  · simp only [runBatch, hc]
  · intro st
    simp only [runBatch, hc]
    exact fun hcontra => Except.noConfusion hcontra

/-- Witness for C6: a valid row ("a", 1, 3), the malformed row ("x", 5, 5)
and a trailing valid row ("b", 2, 4) over a two-page source document. -/
theorem batch_aborts_before_any_export_witness :
    ∃ e, SliceRequest.tryFrom ⟨"x", 5, 5⟩ = .error e ∧
      runBatch [⟨"a", 1, 3⟩, ⟨"x", 5, 5⟩, ⟨"b", 2, 4⟩] ([10, 20] : Document ℕ) =
        .error e ∧
      ∀ st, runBatch [⟨"a", 1, 3⟩, ⟨"x", 5, 5⟩, ⟨"b", 2, 4⟩]
        ([10, 20] : Document ℕ) ≠ .ok st :=
  batch_aborts_before_any_export [⟨"a", 1, 3⟩] ⟨"x", 5, 5⟩ [⟨"b", 2, 4⟩]
    ([10, 20] : Document ℕ)
    (by intro r hr; fin_cases hr; decide) (by decide)

/-- Counterexample to C8 as stated: the external tool exits with status 1
(non-zero), yet because the optimized output file exists `shrink` succeeds —
the exit status is never inspected, so a non-zero exit is not fatal and the
exit status does not determine the step's success (the result is identical
to that of an exit status of 0). -/
theorem shrink_ignores_exit_status_counterexample :
    shrink ("a") [(unoptimizedPath ("a"), 100)]
        (some (⟨1, ("boom")⟩, [(optimizedPath ("a"), 50)])) =
      .ok ([(optimizedPath ("a"), 50)], (100, 50)) ∧
    shrink ("a") [(unoptimizedPath ("a"), 100)]
        (some (⟨1, ("boom")⟩, [(optimizedPath ("a"), 50)])) =
      shrink ("a") [(unoptimizedPath ("a"), 100)]
        (some (⟨0, ("")⟩, [(optimizedPath ("a"), 50)])) :=
  ⟨rfl, rfl⟩

/-- C8 amended: a failure to launch the external post-processing tool (tool
missing) is fatal for that file's optimized variant, as is the optimized
output file being absent when its size is read; the tool's exit status and
standard output are ignored and play no part in success; and the step itself
writes nothing — the resulting filesystem is exactly the one the external
tool left, so the already-persisted unoptimized export is not modified by
the step. -/
theorem shrink_failure_modes (pdf_name : String) (fs fs2 : List (String × ℕ))
    (pre_size : ℕ) (output output' : ProcessOutput)
    (hin : fsGet fs (unoptimizedPath pdf_name) = some pre_size) :
    shrink pdf_name fs none = .error .spawnError ∧
    (fsGet fs2 (optimizedPath pdf_name) = none →
      shrink pdf_name fs (some (output, fs2)) =
        .error (.metadataError (optimizedPath pdf_name))) ∧
    shrink pdf_name fs (some (output, fs2)) =
      shrink pdf_name fs (some (output', fs2)) ∧
    (∀ fs3 sizes, shrink pdf_name fs (some (output, fs2)) = .ok (fs3, sizes) →
      fs3 = fs2 ∧ sizes.1 = pre_size) := by
  refine ⟨?_, ?_, ?_, ?_⟩
  · simp only [shrink, hin]
  · intro hout
    simp only [shrink, hin, hout]
  · simp only [shrink, hin]
  · intro fs3 sizes hok
    simp only [shrink, hin] at hok
    cases hout : fsGet fs2 (optimizedPath pdf_name) with
    | none => rw [hout] at hok; exact Except.noConfusion hok
    | some post_size =>
      rw [hout] at hok
      cases hok
      exact ⟨rfl, rfl⟩

/-- Witness for C8 amended at the concrete stem "a" with the unoptimized
export of size 100 present. -/
theorem shrink_failure_modes_witness :
    shrink ("a") [(unoptimizedPath ("a"), 100)] none = .error .spawnError ∧
    (fsGet [] (optimizedPath ("a")) = none →
      shrink ("a") [(unoptimizedPath ("a"), 100)] (some (⟨2, ("oops")⟩, [])) =
        .error (.metadataError (optimizedPath ("a")))) ∧
    shrink ("a") [(unoptimizedPath ("a"), 100)] (some (⟨2, ("oops")⟩, [])) =
      shrink ("a") [(unoptimizedPath ("a"), 100)] (some (⟨0, ("")⟩, [])) ∧
    (∀ fs3 sizes, shrink ("a") [(unoptimizedPath ("a"), 100)]
        (some (⟨2, ("oops")⟩, [])) = .ok (fs3, sizes) →
      fs3 = [] ∧ sizes.1 = 100) :=
  shrink_failure_modes ("a") [(unoptimizedPath ("a"), 100)] [] 100
    ⟨2, ("oops")⟩ ⟨0, ("")⟩ rfl
